import Mathlib

/-!
Shallow embedding of the `fs` line-search tool (src/fs.c) and proofs of the
specification claims.  Text lines and C strings are modelled as `List Char`;
the streaming engine `process_file` is modelled as a pure function from the
list of input lines (as produced by the `fgets` chunking loop) to the list of
emitted output events.  Machine integers that the source keeps non-negative
(line numbers, counters, buffer indices) are modelled as `Nat`; the option
values that C stores in `int` and may receive negative are modelled as `Int`
at the clamping site.
-/

namespace FS

/-- MAX_LINE_LEN from fs.c: the longest line the tool will try to display. -/
def MAX_LINE_LEN : Nat := 4096

/-- TAB_WIDTH from fs.c. -/
def TAB_WIDTH : Nat := 4

/-- The Options structure from fs.c (the engine-relevant fields).  The
`pattern` field holds the pattern after `main`'s possible lowercasing step. -/
structure Options where
  ignore_case : Bool
  reverse_find : Bool
  use_regex : Bool
  show_line_numbers : Bool
  show_filename : Bool
  filename_title : Bool
  filename_only : Bool
  count_only : Bool
  before : Nat
  after : Nat
  line_limit : Nat
  line_crop : Nat
  pattern : List Char
deriving DecidableEq

/-- C `tolower` on an ASCII character (the "C" locale behaviour the source
relies on): map A-Z to a-z, leave everything else alone. -/
def toLowerChar (c : Char) : Char :=
  if 'A' ≤ c ∧ c ≤ 'Z' then Char.ofNat (c.toNat + 32) else c

/-- C `strstr(hay, needle) != NULL` as a boolean on char lists: does `hay`
contain `needle` as a contiguous substring?  (An empty needle is found in
every haystack, as with `strstr`.) -/
def strstrB (needle : List Char) : List Char → Bool
  | [] => needle.isPrefixOf []
  | c :: rest => needle.isPrefixOf (c :: rest) || strstrB needle rest

/-- Function `line_contains` from fs.c.  The compiled regex (an external collaborator)
is abstracted as a boolean predicate `regex`, consulted only in regex mode.
In the `-i` path the source copies the line into a fixed `char[MAX_LINE_LEN]`
buffer with `strncpy(.., MAX_LINE_LEN-1)` before lowercasing, so only the
first `MAX_LINE_LEN - 1` characters take part; the case-sensitive path runs
`strstr` on the whole line.  `-r` negates the result afterwards. -/
def line_contains (line : List Char) (opts : Options) (regex : List Char → Bool) : Bool :=
  let matched :=
    if opts.use_regex then
      regex line
    else if opts.ignore_case then
      strstrB opts.pattern ((line.take (MAX_LINE_LEN - 1)).map toLowerChar)
    else
      strstrB opts.pattern line
  if opts.reverse_find then !matched else matched

/-- Function `get_basename` from fs.c: the text after the last '/' in the path, or the
whole string if there is none (the `strrchr` logic, for a non-NULL path). -/
def get_basename (path : List Char) : List Char :=
  (path.reverse.takeWhile (fun c => c ≠ '/')).reverse

/-- Function `append_to_buffer` from fs.c for a buffer of capacity `bufsize`
(including the terminating NUL): nothing happens if the buffer is full, and
`vsnprintf` truncates the appended text so that content plus NUL fit. -/
def append_to_buffer (buf : List Char) (bufsize : Nat) (content : List Char) : List Char :=
  if bufsize = 0 then buf
  else if bufsize - 1 ≤ buf.length then buf
  else buf ++ content.take (bufsize - 1 - buf.length)

/-- The `"%04d"` rendering used for line numbers in `print_line`. -/
def fmt04d (n : Nat) : List Char :=
  let ds := Nat.toDigits 10 n
  List.replicate (4 - ds.length) '0' ++ ds

/-- The tab-expansion loop of `print_line`: expand each tab to the next
multiple-of-`TAB_WIDTH` column, tracking the output column `col`, and stop
once `room` output characters have been produced (the source caps output at
`sizeof(line_expanded)-1 = MAX_LINE_LEN-1`). -/
def expandAux : List Char → Nat → Nat → List Char
  | [], _, _ => []
  | c :: rest, col, room =>
    if room = 0 then []
    else if c = '\t' then
      let spaces := TAB_WIDTH - col % TAB_WIDTH
      let emit := min spaces room
      List.replicate emit ' ' ++ expandAux rest (col + emit) (room - emit)
    else
      c :: expandAux rest (col + 1) (room - 1)

/-- The newline strip of `print_line`: remove one trailing newline. -/
def strip_newline (l : List Char) : List Char :=
  if l.getLast? = some '\n' then l.dropLast else l

/-- The text `print_line` works on after its local copy (`strncpy` keeps the
first `MAX_LINE_LEN-1` characters), newline strip and tab expansion. -/
def expanded_line (line : List Char) : List Char :=
  expandAux (strip_newline (line.take (MAX_LINE_LEN - 1))) 0 (MAX_LINE_LEN - 1)

/-- The `char prefix[256]` assembly of `print_line`: optional
`basename:` then optional zero-padded `NNNN:` line number. -/
def line_pfx (filename : List Char) (lineno : Nat)
    (show_line_nums show_fname : Bool) : List Char :=
  let p0 : List Char := []
  let p1 := if show_fname then append_to_buffer p0 256 (get_basename filename ++ [':']) else p0
  let p2 := if show_line_nums then append_to_buffer p1 256 (fmt04d lineno ++ [':']) else p1
  p2

/-- Function `print_line` from fs.c, returning the emitted line (without the final
newline that `printf` adds).  Crop (`-L`) keeps a suffix of the expanded
line (empty if the line is not longer than `crop_chars`); `max_chars` (`-l`)
is clamped to the pre-crop expanded length and then `"%.*s"` prints at most
that many characters of the (possibly cropped) text. -/
def print_line (filename line : List Char) (lineno max_chars crop_chars : Nat)
    (show_line_nums show_fname : Bool) : List Char :=
  let lineE := expanded_line line
  let len := lineE.length
  let line_to_print :=
    if 0 < crop_chars then (if crop_chars < len then lineE.drop crop_chars else [])
    else lineE
  let mc := if len < max_chars then len else max_chars
  line_pfx filename lineno show_line_nums show_fname ++ line_to_print.take mc

/-- Handler `handle_line_limit` clamping logic from fs.c, on the `atoi` result. -/
def parsed_line_limit (n0 : Int) : Int :=
  let n1 := if n0 < 0 then 0 else n0
  if (MAX_LINE_LEN : Int) ≤ n1 then (MAX_LINE_LEN : Int) - 1 else n1

/-- Handler `handle_line_crop` clamping logic from fs.c, on the `atoi` result. -/
def parsed_line_crop (n0 : Int) : Int :=
  let n1 := if n0 < 0 then 0 else n0
  if (MAX_LINE_LEN : Int) ≤ n1 then (MAX_LINE_LEN : Int) - 1 else n1

/-- Handler `handle_line_limit` from fs.c: store the clamped `-lN` value. -/
def handle_line_limit (opts : Options) (n0 : Int) : Options :=
  { opts with line_limit := (parsed_line_limit n0).toNat }

/-- Handler `handle_line_crop` from fs.c: store the clamped `-LN` value. -/
def handle_line_crop (opts : Options) (n0 : Int) : Options :=
  { opts with line_crop := (parsed_line_crop n0).toNat }

/-- One slot of the `-b` circular buffer (`BeforeLine` in fs.c). -/
structure BeforeLine where
  lineno : Nat
  line : List Char
deriving DecidableEq

/-- The mutable locals of `process_file`: current line number, the `-a`
countdown, the circular before-buffer (slot `= none` models a NULL `line`
pointer, as after `xcalloc`), its write position and fill count, and the
match counter. -/
structure PState where
  lineno : Nat
  after_counter : Nat
  buf : List (Option BeforeLine)
  buf_pos : Nat
  buf_count : Nat
  match_count : Nat
deriving DecidableEq

/-- The locals of `process_file` at the top of the read loop. -/
def initState (opts : Options) : PState :=
  { lineno := 1
    after_counter := 0
    buf := List.replicate opts.before none
    buf_pos := 0
    buf_count := 0
    match_count := 0 }

/-- The `-b` drain loop of `process_file`: starting at
`(buf_pos + (before_size - buf_count)) % before_size`, visit `buf_count`
slots in circular order and emit the non-NULL ones. -/
def drainView (st : PState) (size : Nat) : List BeforeLine :=
  let start := (st.buf_pos + (size - st.buf_count)) % size
  (List.range st.buf_count).filterMap (fun i => st.buf.getD ((start + i) % size) none)

/-- The `-b` push of `process_file`: overwrite slot `buf_pos` with the
current line, advance `buf_pos` circularly, grow `buf_count` up to `size`. -/
def pushLine (st : PState) (size : Nat) (ln : List Char) : PState :=
  { st with
    buf := st.buf.set st.buf_pos (some ⟨st.lineno, ln⟩)
    buf_pos := (st.buf_pos + 1) % size
    buf_count := if st.buf_count < size then st.buf_count + 1 else st.buf_count }

/-- One output event of the engine (one `printf` of fs.c). -/
inductive Out where
  /-- The `-F` file title block. -/
  | title (filename : List Char) : Out
  /-- The `-m` "Match Found In:" line. -/
  | matchIn (filename : List Char) : Out
  /-- The `"---"` marker printed ahead of a match's before-context replay. -/
  | startMark : Out
  /-- A formatted text line (a `print_line` call). -/
  | outLine (s : List Char) : Out
  /-- The `"+++"` marker printed when the after-counter runs out. -/
  | endMark : Out
  /-- The `-c` count line `basename:count`. -/
  | count (name : List Char) (n : Nat) : Out
deriving DecidableEq

/-- The body of `process_file`'s `while (fgets(..))` loop for one line:
the emitted output events in order, and `none` in place of the next state
when the `-m` early `return` fires.  Mirrors fs.c's order: match test;
`-m` early return; `match_count++`; `"---"` + before-drain; after-counter
reset; conditional current-line emission with after-counter decrement and
`"+++"`; circular-buffer push; `lineno++`. -/
def stepLine (opts : Options) (regex : List Char → Bool) (filename : List Char)
    (st : PState) (line : List Char) : List Out × Option PState :=
  let matched := line_contains line opts regex
  if matched && opts.filename_only then
    ([Out.matchIn filename], none)
  else
    let mc := if matched then st.match_count + 1 else st.match_count
    let beforeOut :=
      if matched && (opts.before != 0) && !opts.count_only then
        Out.startMark :: (drainView st opts.before).map (fun b =>
          Out.outLine (print_line filename b.line b.lineno opts.line_limit opts.line_crop
            opts.show_line_numbers opts.show_filename))
      else []
    let ac0 := if matched then opts.after else st.after_counter
    let emit := (matched || (ac0 != 0)) && !opts.count_only
    let emitOut :=
      if emit then
        [Out.outLine (print_line filename line st.lineno opts.line_limit opts.line_crop
          opts.show_line_numbers opts.show_filename)]
      else []
    let dec := emit && !matched && (ac0 != 0)
    let ac1 := if dec then ac0 - 1 else ac0
    let markOut := if dec && (ac1 == 0) then [Out.endMark] else []
    let st1 : PState :=
      { lineno := st.lineno, after_counter := ac1, buf := st.buf
        buf_pos := st.buf_pos, buf_count := st.buf_count, match_count := mc }
    let st2 := if opts.before != 0 then pushLine st1 opts.before line else st1
    (beforeOut ++ emitOut ++ markOut, some { st2 with lineno := st2.lineno + 1 })

/-- The read loop of `process_file` over the (already chunked) input lines:
collect the emitted events; `none` signals the `-m` early return. -/
def runLines (opts : Options) (regex : List Char → Bool) (filename : List Char)
    (st : PState) : List (List Char) → List Out × Option PState
  | [] => ([], some st)
  | l :: rest =>
    match stepLine opts regex filename st l with
    | (out, none) => (out, none)
    | (out, some st1) =>
      let r := runLines opts regex filename st1 rest
      (out ++ r.1, r.2)

/-- Function `process_file` from fs.c on one stream, as the list of emitted events:
optional `-F` title, the loop output, and — unless the `-m` early return
fired — the `-c` count line. -/
def process_file (opts : Options) (regex : List Char → Bool) (filename : List Char)
    (input : List (List Char)) : List Out :=
  let titleOut := if opts.filename_title then [Out.title filename] else []
  let r := runLines opts regex filename (initState opts) input
  match r.2 with
  | none => titleOut ++ r.1
  | some st =>
    titleOut ++ r.1 ++
      (if opts.count_only then [Out.count (get_basename filename) st.match_count] else [])

/-- One `fgets(line, MAX_LINE_LEN, fp)` call on the remaining byte stream,
with `fuel` the remaining room (`MAX_LINE_LEN - 1` at top level): returns
the chunk read and the rest of the stream.  Reading stops after a newline,
when the room is exhausted, or at end of stream. -/
def readChunk : Nat → List Char → List Char × List Char
  | 0, s => ([], s)
  | _ + 1, [] => ([], [])
  | fuel + 1, c :: rest =>
    if c = '\n' then ([c], rest)
    else
      let r := readChunk fuel rest
      (c :: r.1, r.2)

/-- The `while (fgets(...))` chunking of a whole byte stream into the logical
lines that `process_file` actually sees: repeated `readChunk`s with room
`MAX_LINE_LEN - 1`. -/
def fgetsChunks (s : List Char) : List (List Char) :=
  match s with
  | [] => []
  | c :: rest =>
    let r := readChunk (MAX_LINE_LEN - 1) (c :: rest)
    r.1 :: fgetsChunks r.2
termination_by s.length
decreasing_by
  have key : ∀ (fuel : Nat) (t : List Char),
      (readChunk fuel t).1.length + (readChunk fuel t).2.length = t.length := by
    intro fuel
    induction fuel with
    | zero => intro t; simp [readChunk]
    | succ n ih =>
      intro t
      cases t with
      | nil => simp [readChunk]
      | cons d ds =>
        by_cases hd : d = '\n'
        · simp [readChunk, hd, Nat.add_comm]
        · simp only [readChunk, if_neg hd, List.length_cons]
          have := ih ds
          omega
  have pos : 0 < (readChunk (MAX_LINE_LEN - 1) (c :: rest)).1.length := by
    show 0 < (readChunk (4094 + 1) (c :: rest)).1.length
    by_cases hc : c = '\n' <;> simp [readChunk, hc]
  have h1 := key (MAX_LINE_LEN - 1) (c :: rest)
  simp only [List.length_cons] at h1
  simp only [List.length_cons]
  omega

/-- Spec-side description of a run of consecutively numbered lines, used to
state what the before-context window must contain. -/
def numbered (n : Nat) : List (List Char) → List BeforeLine
  | [] => []
  | x :: xs => ⟨n, x⟩ :: numbered (n + 1) xs

/-- The invariant tying `process_file`'s circular-buffer locals to the list
`l` of lines pushed so far (for a window of capacity `size`). -/
structure WinInv (size : Nat) (l : List (List Char)) (st : PState) : Prop where
  hline : st.lineno = l.length + 1
  hlen : st.buf.length = size
  hcount1 : l.length < size → st.buf_count = l.length
  hcount2 : size ≤ l.length → st.buf_count = size
  hpos0 : size = 0 → st.buf_pos = 0
  hpos : 0 < size → st.buf_pos = l.length % size
  hslot : ∀ i, i < st.buf_count →
    st.buf[(((st.buf_pos + (size - st.buf_count)) % size) + i) % size]? =
      some (some ⟨l.length - st.buf_count + 1 + i, l.getD (l.length - st.buf_count + i) []⟩)

/-- Concrete configuration used by the context-block-marker counterexample:
`-b1`, pattern `a`, everything else default. -/
def optsMk : Options :=
  { ignore_case := false, reverse_find := false, use_regex := false
    show_line_numbers := false, show_filename := false, filename_title := false
    filename_only := false, count_only := false, before := 1, after := 0
    line_limit := MAX_LINE_LEN - 1, line_crop := 0, pattern := ['a'] }

/-- Concrete configuration for the case-insensitive matcher claims:
`-i`, pattern `b` (already lowercased as `main` does). -/
def optsCase : Options :=
  { ignore_case := true, reverse_find := false, use_regex := false
    show_line_numbers := false, show_filename := false, filename_title := false
    filename_only := false, count_only := false, before := 0, after := 0
    line_limit := MAX_LINE_LEN - 1, line_crop := 0, pattern := ['b'] }

/-- A physical line of 4095 `a`s followed by one `b`: longer than the
`MAX_LINE_LEN - 1` bound the `-i` lowercasing buffer can hold. -/
def longLine : List Char := List.replicate (MAX_LINE_LEN - 1) 'a' ++ ['b']

/-- Concrete count-mode configuration (`-c`, pattern `a`, `-b2 -a3`). -/
def optsCount : Options :=
  { ignore_case := false, reverse_find := false, use_regex := false
    show_line_numbers := false, show_filename := false, filename_title := false
    filename_only := false, count_only := true, before := 2, after := 3
    line_limit := MAX_LINE_LEN - 1, line_crop := 0, pattern := ['a'] }

/-- Concrete filenames-only configuration (`-m`, pattern `a`). -/
def optsFnames : Options :=
  { ignore_case := false, reverse_find := false, use_regex := false
    show_line_numbers := false, show_filename := false, filename_title := false
    filename_only := true, count_only := false, before := 0, after := 0
    line_limit := MAX_LINE_LEN - 1, line_crop := 0, pattern := ['a'] }

/-- Concrete default-mode configuration (`-a2`, pattern `a`) for the
after-counter witness. -/
def optsAfter : Options :=
  { ignore_case := false, reverse_find := false, use_regex := false
    show_line_numbers := false, show_filename := false, filename_title := false
    filename_only := false, count_only := false, before := 0, after := 2
    line_limit := MAX_LINE_LEN - 1, line_crop := 0, pattern := ['a'] }

/-- A mid-stream driver state with a live after-window, for the
after-counter witness. -/
def stAfter : PState :=
  { lineno := 2, after_counter := 2, buf := [], buf_pos := 0, buf_count := 0
    match_count := 1 }


/-! ## Helper lemmas -/

theorem filterMap_range_eq_map {β : Type} (n : Nat) (f : Nat → Option β) (g : Nat → β)
    (h : ∀ i, i < n → f i = some (g i)) :
    (List.range n).filterMap f = (List.range n).map g := by
  induction n with
  | zero => simp
  | succ m ih =>
    rw [List.range_succ, List.filterMap_append, List.map_append]
    rw [ih (fun i hi => h i (Nat.lt_succ_of_lt hi))]
    simp [h m (Nat.lt_succ_self m)]

theorem numbered_length (xs : List (List Char)) : ∀ n, (numbered n xs).length = xs.length := by
  induction xs with
  | nil => intro n; rfl
  | cons x xs ih => intro n; simp [numbered, ih]

theorem numbered_mem_lineno (xs : List (List Char)) :
    ∀ n b, b ∈ numbered n xs → n ≤ b.lineno ∧ b.lineno < n + xs.length := by
  induction xs with
  | nil => intro n b h; simp [numbered] at h
  | cons x xs ih =>
    intro n b h
    simp only [numbered, List.mem_cons] at h
    rcases h with h | h
    · subst h; simp
    · have := ih (n + 1) b h
      constructor <;> [omega; (simp only [List.length_cons]; omega)]

theorem numbered_chain (xs : List (List Char)) :
    ∀ n, List.Chain' (fun a b : BeforeLine => a.lineno < b.lineno) (numbered n xs) := by
  induction xs with
  | nil => intro n; simp [numbered]
  | cons x xs ih =>
    intro n
    cases xs with
    | nil => simp [numbered]
    | cons y ys =>
      refine List.Chain'.cons ?_ (ih (n + 1))
      simp [numbered]

theorem numbered_eq_map_range (xs : List (List Char)) :
    ∀ n, numbered n xs = (List.range xs.length).map (fun i => ⟨n + i, xs.getD i []⟩) := by
  induction xs with
  | nil => intro n; rfl
  | cons x xs ih =>
    intro n
    rw [List.length_cons, List.range_succ_eq_map, List.map_cons, List.map_map]
    simp only [numbered, Nat.add_zero, List.getD_cons_zero]
    congr 1
    rw [ih (n + 1)]
    apply List.map_congr_left
    intro i _
    simp only [Function.comp_apply, Nat.succ_eq_add_one, List.getD_cons_succ]
    congr 1
    omega

theorem numbered_mem_last (xs : List (List Char)) (x : List Char) :
    ∀ n, (⟨n + xs.length, x⟩ : BeforeLine) ∈ numbered n (xs ++ [x]) := by
  induction xs with
  | nil => intro n; simp [numbered]
  | cons y ys ih =>
    intro n
    simp only [List.cons_append, numbered, List.mem_cons, List.length_cons]
    right
    have := ih (n + 1)
    have harith : n + (ys.length + 1) = n + 1 + ys.length := by omega
    rw [harith]
    exact this

/-! ## C10: option clamping -/

/-- C10: the `-l` and `-L` handlers clamp the parsed value into
`[0, MAX_LINE_LEN - 1] = [0, 4095]`, both at the `atoi` result and in the
stored configuration field, so larger values never reach the engine. -/
theorem line_limit_crop_clamped (opts : Options) (n m : Int) :
    0 ≤ parsed_line_limit n ∧ parsed_line_limit n ≤ (MAX_LINE_LEN : Int) - 1 ∧
    0 ≤ parsed_line_crop m ∧ parsed_line_crop m ≤ (MAX_LINE_LEN : Int) - 1 ∧
    (handle_line_limit opts n).line_limit ≤ MAX_LINE_LEN - 1 ∧
    (handle_line_crop opts m).line_crop ≤ MAX_LINE_LEN - 1 := by
  simp only [parsed_line_limit, parsed_line_crop, handle_line_limit, handle_line_crop,
    MAX_LINE_LEN]
  constructor
  · split <;> split <;> omega
  constructor
  · split <;> omega
  constructor
  · split <;> split <;> omega
  constructor
  · split <;> omega
  constructor
  · split <;> split <;> omega
  · split <;> split <;> omega

/-! ## C6: crop then truncate, on the tab-expanded text -/

/-- C6: `print_line` first drops `crop_chars` leading characters of the
tab-expanded text (yielding the empty tail when the expanded line is no
longer than `crop_chars`) and then truncates to `max_chars`, measured
against the post-crop text; a fully cropped-away line still emits just the
(possibly empty) prefix. -/
theorem print_line_crop_truncate (filename line : List Char)
    (lineno max_chars crop_chars : Nat) (sn sf : Bool) :
    print_line filename line lineno max_chars crop_chars sn sf =
      line_pfx filename lineno sn sf ++
        (((expanded_line line).drop crop_chars).take max_chars) ∧
    ((expanded_line line).length ≤ crop_chars →
      print_line filename line lineno max_chars crop_chars sn sf =
        line_pfx filename lineno sn sf) := by
  have main : print_line filename line lineno max_chars crop_chars sn sf =
      line_pfx filename lineno sn sf ++
        (((expanded_line line).drop crop_chars).take max_chars) := by
    simp only [print_line]
    congr 1
    by_cases hc : 0 < crop_chars
    · by_cases hlt : crop_chars < (expanded_line line).length
      · simp only [if_pos hc, if_pos hlt]
        by_cases hm : (expanded_line line).length < max_chars
        · rw [if_pos hm]
          rw [List.take_of_length_le (by simp only [List.length_drop]; omega),
            List.take_of_length_le (by simp only [List.length_drop]; omega)]
        · rw [if_neg hm]
      · simp only [if_pos hc, if_neg hlt]
        rw [List.drop_eq_nil_of_le (by omega)]
        simp
    · have hc0 : crop_chars = 0 := by omega
      subst hc0
      simp only [if_neg (by omega : ¬ (0:Nat) < 0), List.drop_zero]
      by_cases hm : (expanded_line line).length < max_chars
      · rw [if_pos hm, List.take_of_length_le (le_refl _),
          List.take_of_length_le (by omega)]
      · rw [if_neg hm]
  refine ⟨main, fun hle => ?_⟩
  rw [main, List.drop_eq_nil_of_le hle]
  simp


/-- C6 (witness): the crop/truncate equation on the concrete line `hello`
with crop 1 and ceiling 3, and the prefix-only output once the whole
expanded line (length 5) is cropped away by crop 10. -/
theorem print_line_crop_truncate_witness :
    (print_line [] ['h', 'e', 'l', 'l', 'o'] 1 3 1 false false =
      line_pfx [] 1 false false ++
        (((expanded_line ['h', 'e', 'l', 'l', 'o']).drop 1).take 3)) ∧
    ((expanded_line ['h', 'e', 'l', 'l', 'o']).length ≤ 10 ∧
      print_line [] ['h', 'e', 'l', 'l', 'o'] 1 3 10 false false =
        line_pfx [] 1 false false) :=
  ⟨(print_line_crop_truncate [] ['h', 'e', 'l', 'l', 'o'] 1 3 1 false false).1,
    by decide,
    (print_line_crop_truncate [] ['h', 'e', 'l', 'l', 'o'] 1 3 10 false false).2 (by decide)⟩

/-! ## C7: the case-insensitive matcher and the line-length bound -/

theorem strstrB_iff_substring (p : List Char) : ∀ s : List Char,
    strstrB p s = true ↔ p <:+: s := by
  intro s
  induction s with
  | nil =>
    simp only [strstrB, List.isPrefixOf_iff_prefix]
    constructor
    · intro h; exact h.isInfix
    · intro h
      have h0 : p = [] := Iff.mp List.infix_nil h
      subst h0
      exact List.nil_prefix
  | cons c cs ih =>
    simp only [strstrB, Bool.or_eq_true, List.isPrefixOf_iff_prefix, ih]
    exact Iff.symm List.infix_cons_iff

/-- C7 (amended): for lines of length at most `MAX_LINE_LEN - 1` (which is
every line the fgets-driven loop can produce), case-insensitive literal
classification is true exactly when the lowercased line contains the
pre-lowercased pattern as a contiguous substring, with `-r` inversion
applied afterwards.  (For longer lines, the fixed lowercasing buffer in
`line_contains` only examines the first `MAX_LINE_LEN - 1` characters; see
the counterexample.) -/
theorem line_contains_case_insensitive (opts : Options) (regex : List Char → Bool)
    (line : List Char) (h1 : opts.use_regex = false) (h2 : opts.ignore_case = true)
    (hlen : line.length ≤ MAX_LINE_LEN - 1) :
    line_contains line opts regex = true ↔
      (opts.reverse_find = false ∧ opts.pattern <:+: line.map toLowerChar) ∨
      (opts.reverse_find = true ∧ ¬ opts.pattern <:+: line.map toLowerChar) := by
  simp only [line_contains, h1, h2, if_false, if_true, Bool.false_eq_true, Bool.true_eq_false]
  rw [List.take_of_length_le hlen]
  cases hr : opts.reverse_find <;> by_cases hin : opts.pattern <:+: line.map toLowerChar
  · have hs : strstrB opts.pattern (line.map toLowerChar) = true :=
      (strstrB_iff_substring _ _).mpr hin
    simp [hs, hin]
  · have hs : strstrB opts.pattern (line.map toLowerChar) = false := by
      cases h' : strstrB opts.pattern (line.map toLowerChar)
      · rfl
      · exact absurd ((strstrB_iff_substring _ _).mp h') hin
    simp [hs, hin]
  · have hs : strstrB opts.pattern (line.map toLowerChar) = true :=
      (strstrB_iff_substring _ _).mpr hin
    simp [hs, hin]
  · have hs : strstrB opts.pattern (line.map toLowerChar) = false := by
      cases h' : strstrB opts.pattern (line.map toLowerChar)
      · rfl
      · exact absurd ((strstrB_iff_substring _ _).mp h') hin
    simp [hs, hin]

theorem strstrB_b_replicate_a (n : Nat) : strstrB ['b'] (List.replicate n 'a') = false := by
  induction n with
  | zero => rfl
  | succ m ih =>
    rw [List.replicate_succ]
    simp only [strstrB, ih, Bool.or_false]
    rfl

/-- C7 (counterexample): a 4096-character line whose only `b` is its last
character.  The claim says classification must not assume the line is
bounded in length, yet `line_contains` in `-i` mode copies the line into a
fixed `MAX_LINE_LEN` buffer: the pattern `b` IS a substring of the
lowercased line, but `line_contains` answers `false`. -/
theorem line_contains_unbounded_cex :
    line_contains longLine optsCase (fun _ => false) = false ∧
    optsCase.pattern <:+: longLine.map toLowerChar ∧
    optsCase.reverse_find = false ∧ MAX_LINE_LEN - 1 < longLine.length := by
  refine ⟨?_, ?_, rfl, by simp [longLine]⟩
  · have htake : longLine.take (MAX_LINE_LEN - 1) = List.replicate (MAX_LINE_LEN - 1) 'a' := by
      simp only [longLine]
      rw [List.take_append_of_le_length (by simp), List.take_of_length_le (by simp)]
    simp only [line_contains, optsCase]
    rw [htake]
    simp only [List.map_replicate]
    have hlc : toLowerChar 'a' = 'a' := by decide
    rw [hlc]
    simp [strstrB_b_replicate_a]
  · have hmap : longLine.map toLowerChar = List.replicate (MAX_LINE_LEN - 1) 'a' ++ ['b'] := by
      simp only [longLine, List.map_append, List.map_replicate]
      have h1 : toLowerChar 'a' = 'a' := by decide
      have h2 : toLowerChar 'b' = 'b' := by decide
      rw [h1]
      simp [h2]
    rw [hmap]
    exact ⟨List.replicate (MAX_LINE_LEN - 1) 'a', [], by simp [optsCase]⟩

/-- C7 (witness): the amended theorem applied to the concrete line `A` with
pattern `b`...`a`; line `Ba` matched case-insensitively. -/
theorem line_contains_case_insensitive_witness :
    optsCase.use_regex = false ∧ optsCase.ignore_case = true ∧
    (['B', 'x'] : List Char).length ≤ MAX_LINE_LEN - 1 ∧
    (line_contains ['B', 'x'] optsCase (fun _ => false) = true ↔
      (optsCase.reverse_find = false ∧ optsCase.pattern <:+: (['B', 'x'] : List Char).map toLowerChar) ∨
      (optsCase.reverse_find = true ∧ ¬ optsCase.pattern <:+: (['B', 'x'] : List Char).map toLowerChar)) :=
  ⟨rfl, rfl, by decide,
    line_contains_case_insensitive optsCase (fun _ => false) ['B', 'x'] rfl rfl (by decide)⟩

/-! ## C5: context block delimiters -/

/-- C5 (amended): in one engine step, the `"---"` start marker is emitted
exactly when the line matches, `-m` is off, `before_context > 0` and
count-only is off — that is, on every match (even a match that extends an
ongoing block, and even when the window is empty), not once per block; the
`"+++"` end marker is emitted exactly when a non-matching line is processed
with count-only off and the after-counter at 1 (so the emitted decrement
brings it to zero). -/
theorem marker_emission (opts : Options) (regex : List Char → Bool)
    (filename : List Char) (st : PState) (line : List Char) :
    (Out.startMark ∈ (stepLine opts regex filename st line).1 ↔
      (line_contains line opts regex = true ∧ opts.filename_only = false ∧
        0 < opts.before ∧ opts.count_only = false)) ∧
    (Out.endMark ∈ (stepLine opts regex filename st line).1 ↔
      (line_contains line opts regex = false ∧ opts.count_only = false ∧
        st.after_counter = 1)) := by
  cases hm : line_contains line opts regex <;>
    cases hfo : opts.filename_only <;>
      cases hco : opts.count_only <;>
        by_cases hb : opts.before = 0 <;>
          by_cases ha : st.after_counter = 0 <;>
            by_cases ha1 : st.after_counter = 1 <;>
              simp_all [stepLine, Nat.pos_iff_ne_zero] <;>
                omega


/-- C5 (counterexample): with `-b1` and pattern `a`, on the two input lines
`a`,`a` the emitted text lines form one contiguous match block (lines 1 and
2, no gap, no end marker), yet the `"---"` start marker is emitted twice —
once per match, the second time in the middle of the block, and the first
time when there were no before-context lines at all.  So the start marker
is not "printed once before the first before-context line of a match
block". -/
theorem marker_once_per_block_cex :
    process_file optsMk (fun _ => false) ['f'] [['a'], ['a']] =
      [Out.startMark, Out.outLine ['a'], Out.startMark, Out.outLine ['a'], Out.outLine ['a']] ∧
    (process_file optsMk (fun _ => false) ['f'] [['a'], ['a']]).countP
      (fun o => o == Out.startMark) ≠ 1 := by
  constructor
  · decide
  · decide

/-! ## C4: the after-context countdown -/

/-- C4: in one engine step (with `-m` off), a matching line sets the
after-counter to `after_context` unconditionally — even while a previous
after-window is still active and even when `after_context` is 0 — and a
non-matching line decrements it exactly when it is emitted as trailing
context (count-only off, counter positive), the decremented line being
emitted; in all other cases the counter is unchanged. -/
theorem after_counter_reset (opts : Options) (regex : List Char → Bool)
    (filename : List Char) (st : PState) (line : List Char)
    (hfo : opts.filename_only = false) :
    ∃ st', (stepLine opts regex filename st line).2 = some st' ∧
      (line_contains line opts regex = true → st'.after_counter = opts.after) ∧
      (line_contains line opts regex = false →
        ((opts.count_only = false ∧ 0 < st.after_counter) →
          st'.after_counter = st.after_counter - 1 ∧
          Out.outLine (print_line filename line st.lineno opts.line_limit opts.line_crop
            opts.show_line_numbers opts.show_filename) ∈
              (stepLine opts regex filename st line).1) ∧
        ((opts.count_only = true ∨ st.after_counter = 0) →
          st'.after_counter = st.after_counter)) := by
  cases hm : line_contains line opts regex <;>
    cases hco : opts.count_only <;>
      by_cases ha : st.after_counter = 0 <;>
        by_cases hb : opts.before = 0 <;>
          simp_all [stepLine, pushLine]

/-- C4 (witness): the theorem applied with `-a2`, a live after-window of 2,
and the non-matching line `b`. -/
theorem after_counter_reset_witness :
    optsAfter.filename_only = false ∧
    (∃ st', (stepLine optsAfter (fun _ => false) ['f'] stAfter ['b']).2 = some st' ∧
      (line_contains ['b'] optsAfter (fun _ => false) = true →
        st'.after_counter = optsAfter.after) ∧
      (line_contains ['b'] optsAfter (fun _ => false) = false →
        ((optsAfter.count_only = false ∧ 0 < stAfter.after_counter) →
          st'.after_counter = stAfter.after_counter - 1 ∧
          Out.outLine (print_line ['f'] ['b'] stAfter.lineno optsAfter.line_limit
            optsAfter.line_crop optsAfter.show_line_numbers optsAfter.show_filename) ∈
              (stepLine optsAfter (fun _ => false) ['f'] stAfter ['b']).1) ∧
        ((optsAfter.count_only = true ∨ stAfter.after_counter = 0) →
          st'.after_counter = stAfter.after_counter))) :=
  ⟨rfl, after_counter_reset optsAfter (fun _ => false) ['f'] stAfter ['b'] rfl⟩


/-! ## The circular-buffer window invariant -/

theorem mod_shift_ne (k m size : Nat) (h1 : 0 < m) (h2 : m < size) :
    (k + m) % size ≠ k % size := by
  intro h
  rw [← Nat.mod_add_mod] at h
  have hsize : 0 < size := by omega
  have ha : k % size < size := Nat.mod_lt _ hsize
  by_cases hlt : k % size + m < size
  · rw [Nat.mod_eq_of_lt hlt] at h
    omega
  · have hlt2 : k % size + m - size < size := by omega
    have : (k % size + m) % size = k % size + m - size := by
      rw [Nat.mod_eq_sub_mod (by omega), Nat.mod_eq_of_lt hlt2]
    omega

theorem getD_append_left_aux {α : Type} (l l' : List α) (i : Nat) (d : α)
    (h : i < l.length) : (l ++ l').getD i d = l.getD i d := by
  rw [List.getD_eq_getElem?_getD, List.getD_eq_getElem?_getD,
    List.getElem?_append_left h]

theorem getD_append_last_aux {α : Type} (l l' : List α) (x : α) (d : α)
    (hx : l' = [x]) : (l ++ l').getD l.length d = x := by
  subst hx
  rw [List.getD_eq_getElem?_getD, List.getElem?_append_right (le_refl _)]
  simp

/-- The window fill count never exceeds the capacity or the number of
lines pushed. -/
theorem winInv_count_le (size : Nat) (l : List (List Char)) (st : PState)
    (inv : WinInv size l st) : st.buf_count ≤ size ∧ st.buf_count ≤ l.length := by
  rcases Nat.lt_or_ge l.length size with h | h
  · have := inv.hcount1 h
    omega
  · have := inv.hcount2 h
    omega

/-- The drained window described by `WinInv`: exactly the most recent
`buf_count` pushed lines, consecutively numbered, ending at the last pushed
line. -/
theorem drainView_eq (size : Nat) (l : List (List Char)) (st : PState)
    (inv : WinInv size l st) :
    drainView st size =
      numbered (l.length - st.buf_count + 1) (l.drop (l.length - st.buf_count)) := by
  have hcle := winInv_count_le size l st inv
  have hdrop_len : (l.drop (l.length - st.buf_count)).length = st.buf_count := by
    rw [List.length_drop]
    omega
  rw [numbered_eq_map_range, hdrop_len]
  unfold drainView
  apply filterMap_range_eq_map
  intro i hi
  have hs := inv.hslot i hi
  rw [List.getD_eq_getElem?_getD, hs]
  simp only [Option.getD_some, Option.some.injEq]
  have hline : (l.drop (l.length - st.buf_count)).getD i [] =
      l.getD (l.length - st.buf_count + i) [] := by
    rw [List.getD_eq_getElem?_getD, List.getD_eq_getElem?_getD, List.getElem?_drop]
  rw [hline]

theorem winInv_congr (size : Nat) (l : List (List Char)) (st st' : PState)
    (inv : WinInv size l st) (h1 : st'.lineno = st.lineno) (h2 : st'.buf = st.buf)
    (h3 : st'.buf_pos = st.buf_pos) (h4 : st'.buf_count = st.buf_count) :
    WinInv size l st' := by
  refine ⟨?_, ?_, ?_, ?_, ?_, ?_, ?_⟩
  · rw [h1]; exact inv.hline
  · rw [h2]; exact inv.hlen
  · intro h; rw [h4]; exact inv.hcount1 h
  · intro h; rw [h4]; exact inv.hcount2 h
  · intro h; rw [h3]; exact inv.hpos0 h
  · intro h; rw [h3]; exact inv.hpos h
  · intro i hi
    rw [h2, h3, h4]
    exact inv.hslot i (by rw [← h4]; exact hi)

/-- Pushing the current line preserves the window invariant (the heart of
C2/C3): the freshly written slot carries the current line with number
`l.length + 1`, and the drain order shifts by one. -/
theorem pushLine_inv (size : Nat) (hsize : 0 < size) (l : List (List Char))
    (st : PState) (inv : WinInv size l st) (cur : List Char) :
    WinInv size (l ++ [cur]) { pushLine st size cur with lineno := st.lineno + 1 } := by
  have hk := inv.hline
  have hlen := inv.hlen
  have hpos := inv.hpos hsize
  have hbp_lt : st.buf_pos < size := by
    rw [hpos]; exact Nat.mod_lt _ hsize
  refine ⟨?_, ?_, ?_, ?_, ?_, ?_, ?_⟩
  · simp only [pushLine, List.length_append, List.length_cons, List.length_nil]
    omega
  · simp only [pushLine, List.length_set]
    exact hlen
  · intro h
    simp only [List.length_append, List.length_cons, List.length_nil] at h
    have h1 := inv.hcount1 (by omega)
    simp only [pushLine, List.length_append, List.length_cons, List.length_nil]
    rw [if_pos (by omega)]
    omega
  · intro h
    simp only [List.length_append, List.length_cons, List.length_nil] at h
    simp only [pushLine, List.length_append, List.length_cons, List.length_nil]
    rcases Nat.lt_or_ge l.length size with hx | hx
    · have h1 := inv.hcount1 hx
      rw [if_pos (by omega)]
      omega
    · have h2 := inv.hcount2 hx
      rw [if_neg (by omega)]
      omega
  · intro h; omega
  · intro _
    simp only [pushLine, List.length_append, List.length_cons, List.length_nil]
    rw [hpos, Nat.mod_add_mod]
  · intro i hi
    simp only [pushLine, List.length_append, List.length_cons, List.length_nil] at hi ⊢
    by_cases hklt : l.length < size
    · -- window still filling: old slots keep lines 1..k at indices 0..k-1,
      -- the new line lands at index k
      have hc : st.buf_count = l.length := inv.hcount1 hklt
      have hc' : (if st.buf_count < size then st.buf_count + 1 else st.buf_count) =
          l.length + 1 := by rw [if_pos (by omega)]; omega
      rw [hc'] at hi ⊢
      have hposk : st.buf_pos = l.length := by
        rw [hpos, Nat.mod_eq_of_lt hklt]
      have hstart' : (((st.buf_pos + 1) % size + (size - (l.length + 1))) % size) = 0 := by
        rw [hposk]
        rcases Nat.lt_or_ge (l.length + 1) size with h | h
        · rw [Nat.mod_eq_of_lt h]
          have he : l.length + 1 + (size - (l.length + 1)) = size := by omega
          rw [he, Nat.mod_self]
        · have he : l.length + 1 = size := by omega
          rw [he, Nat.mod_self, Nat.zero_add]
          have he2 : size - size = 0 := by omega
          rw [he2, Nat.zero_mod]
      rw [hstart', Nat.zero_add, Nat.mod_eq_of_lt (by omega : i < size)]
      have harith1 : l.length + 1 - (l.length + 1) + 1 + i = i + 1 := by omega
      have harith2 : l.length + 1 - (l.length + 1) + i = i := by omega
      rw [harith1, harith2]
      by_cases hik : i = l.length
      · subst hik
        rw [hposk] at hbp_lt ⊢
        rw [List.getElem?_set_self (by rw [hlen]; exact hbp_lt)]
        rw [getD_append_last_aux l [cur] cur [] rfl, hk]
      · have hine : i < l.length := by omega
        rw [hposk, List.getElem?_set_ne (by omega)]
        have hs := inv.hslot i (by omega)
        have hstart : ((st.buf_pos + (size - st.buf_count)) % size) = 0 := by
          rw [hposk, hc]
          have he : l.length + (size - l.length) = size := by omega
          rw [he, Nat.mod_self]
        rw [hstart, Nat.zero_add, Nat.mod_eq_of_lt (by omega : i < size)] at hs
        rw [hc] at hs
        have harith3 : l.length - l.length + 1 + i = i + 1 := by omega
        have harith4 : l.length - l.length + i = i := by omega
        rw [harith3, harith4] at hs
        rw [hs, getD_append_left_aux l [cur] i [] hine]
    · -- window full: slot at buf_pos is overwritten with the new line,
      -- every other slot shifts one position earlier in drain order
      have hkge : size ≤ l.length := by omega
      have hc : st.buf_count = size := inv.hcount2 hkge
      have hc' : (if st.buf_count < size then st.buf_count + 1 else st.buf_count) = size := by
        rw [if_neg (by omega)]
        omega
      rw [hc'] at hi ⊢
      have hsub0 : size - size = 0 := by omega
      have hstart' : ∀ j : Nat, (((st.buf_pos + 1) % size + (size - size)) % size + j) % size =
          (l.length + 1 + j) % size := by
        intro j
        rw [hsub0, Nat.add_zero, Nat.mod_add_mod, Nat.mod_add_mod, hpos, Nat.add_assoc,
          Nat.mod_add_mod, ← Nat.add_assoc]
      rw [hstart']
      by_cases hilast : i = size - 1
      · subst hilast
        have he : l.length + 1 + (size - 1) = l.length + size := by omega
        rw [he, Nat.add_mod_right, ← hpos]
        rw [List.getElem?_set_self (by rw [hlen]; exact hbp_lt)]
        have harith1 : l.length + 1 - size + 1 + (size - 1) = l.length + 1 := by omega
        have harith2 : l.length + 1 - size + (size - 1) = l.length := by omega
        rw [harith1, harith2, getD_append_last_aux l [cur] cur [] rfl, hk]
      · have hine : i < size - 1 := by omega
        have hne : (l.length + 1 + i) % size ≠ st.buf_pos := by
          rw [hpos]
          have he : l.length + 1 + i = l.length + (i + 1) := by omega
          rw [he]
          exact mod_shift_ne l.length (i + 1) size (by omega) (by omega)
        rw [List.getElem?_set_ne (fun hcontra => hne hcontra.symm)]
        have hs := inv.hslot (i + 1) (by omega)
        have hstart : ∀ j : Nat, (((st.buf_pos + (size - st.buf_count)) % size) + j) % size =
            (l.length + j) % size := by
          intro j
          rw [hc, hsub0, Nat.add_zero, Nat.mod_add_mod, hpos, Nat.mod_add_mod]
        rw [hstart] at hs
        have he : l.length + (i + 1) = l.length + 1 + i := by omega
        rw [he] at hs
        rw [hc] at hs
        rw [hs]
        have harith1 : l.length - size + 1 + (i + 1) = l.length + 1 - size + 1 + i := by omega
        have harith2 : l.length - size + (i + 1) = l.length + 1 - size + i := by omega
        rw [harith1, harith2]
        have hlt : l.length + 1 - size + i < l.length := by omega
        rw [getD_append_left_aux l [cur] _ [] hlt]

/-- The window invariant holds at the top of the read loop. -/
theorem winInv_init (opts : Options) : WinInv opts.before [] (initState opts) := by
  refine ⟨rfl, ?_, fun _ => rfl, fun h => ?_, fun _ => rfl, fun _ => ?_, ?_⟩
  · simp [initState]
  · simp only [List.length_nil] at h
    simp [initState]
    omega
  · simp [initState]
  · intro i hi
    simp [initState] at hi

/-- One engine step that does not early-return preserves the window
invariant, extending the pushed-line list by the current line. -/
theorem stepLine_inv (opts : Options) (regex : List Char → Bool) (filename : List Char)
    (l : List (List Char)) (st : PState) (inv : WinInv opts.before l st)
    (cur : List Char) (out : List Out) (st' : PState)
    (hstep : stepLine opts regex filename st cur = (out, some st')) :
    WinInv opts.before (l ++ [cur]) st' := by
  simp only [stepLine] at hstep
  by_cases hearly : (line_contains cur opts regex && opts.filename_only) = true
  · rw [if_pos hearly] at hstep
    exact Option.noConfusion (congrArg Prod.snd hstep)
  · rw [if_neg hearly] at hstep
    have h2 := congrArg Prod.snd hstep
    simp only at h2
    by_cases hb : opts.before = 0
    · have hbne : (opts.before != 0) = false := by simp [hb]
      rw [hbne] at h2
      simp only [Bool.false_eq_true, if_neg (by simp : ¬ False)] at h2
      have hst' := Option.some.inj h2
      subst hst'
      refine winInv_congr _ _ { st with lineno := st.lineno + 1 } _ ?_ rfl rfl rfl rfl
      have hc2 := inv.hcount2 (by omega : opts.before ≤ l.length)
      refine ⟨?_, inv.hlen, ?_, ?_, fun h => inv.hpos0 h, ?_, ?_⟩
      · show st.lineno + 1 = (l ++ [cur]).length + 1
        simp only [List.length_append, List.length_cons, List.length_nil]
        have := inv.hline
        omega
      · intro h
        simp only [List.length_append, List.length_cons, List.length_nil] at h
        exact absurd h (by omega)
      · intro h
        show st.buf_count = opts.before
        rw [hc2]
      · intro h
        exact absurd h (by omega)
      · intro i hi
        have hi' : i < st.buf_count := hi
        exact absurd hi' (by omega)
    · have hbne : (opts.before != 0) = true := by simp [hb]
      rw [hbne] at h2
      simp only [if_pos rfl] at h2
      have hst' := Option.some.inj h2
      subst hst'
      have hsize : 0 < opts.before := by omega
      exact winInv_congr _ _ _ _
        (pushLine_inv opts.before hsize l
          { lineno := st.lineno, after_counter := 0, buf := st.buf
            buf_pos := st.buf_pos, buf_count := st.buf_count, match_count := 0 }
          (winInv_congr _ _ _ _ inv rfl rfl rfl rfl) cur)
        rfl rfl rfl rfl


/-! ## Running the loop -/

theorem runLines_cons_none (opts : Options) (regex : List Char → Bool)
    (filename : List Char) (st : PState) (x : List Char) (rest : List (List Char))
    (o1 : List Out) (hstep : stepLine opts regex filename st x = (o1, none)) :
    runLines opts regex filename st (x :: rest) = (o1, none) := by
  simp only [runLines]
  rw [hstep]

theorem runLines_cons_some (opts : Options) (regex : List Char → Bool)
    (filename : List Char) (st : PState) (x : List Char) (rest : List (List Char))
    (o1 : List Out) (st1 : PState)
    (hstep : stepLine opts regex filename st x = (o1, some st1)) :
    runLines opts regex filename st (x :: rest) =
      (o1 ++ (runLines opts regex filename st1 rest).1,
        (runLines opts regex filename st1 rest).2) := by
  simp only [runLines]
  rw [hstep]

theorem stepLine_ne_none (opts : Options) (regex : List Char → Bool)
    (filename : List Char) (st : PState) (line : List Char)
    (hfo : opts.filename_only = false) :
    ∃ st', (stepLine opts regex filename st line).2 = some st' := by
  simp only [stepLine, hfo, Bool.and_false]
  simp only [Bool.false_eq_true, if_neg (by simp : ¬ False)]
  exact ⟨_, rfl⟩

theorem runLines_total (opts : Options) (regex : List Char → Bool)
    (filename : List Char) (hfo : opts.filename_only = false) :
    ∀ (l : List (List Char)) (st : PState),
      ∃ out st', runLines opts regex filename st l = (out, some st') := by
  intro l
  induction l with
  | nil => intro st; exact ⟨[], st, rfl⟩
  | cons x rest ih =>
    intro st
    rcases hs : stepLine opts regex filename st x with ⟨o1, os⟩
    obtain ⟨st1, hst1⟩ := stepLine_ne_none opts regex filename st x hfo
    rw [hs] at hst1
    simp only at hst1
    subst hst1
    obtain ⟨out2, st2, hrec⟩ := ih st1
    refine ⟨o1 ++ out2, st2, ?_⟩
    rw [runLines_cons_some opts regex filename st x rest o1 st1 hs, hrec]

/-- The window invariant is maintained through any completed run of the
read loop. -/
theorem runLines_inv (opts : Options) (regex : List Char → Bool) (filename : List Char) :
    ∀ (ls l0 : List (List Char)) (st : PState), WinInv opts.before l0 st →
      ∀ out st', runLines opts regex filename st ls = (out, some st') →
      WinInv opts.before (l0 ++ ls) st' := by
  intro ls
  induction ls with
  | nil =>
    intro l0 st inv out st' hrun
    simp only [runLines] at hrun
    have h2 := congrArg Prod.snd hrun
    simp only at h2
    have h3 := Option.some.inj h2
    subst h3
    simpa using inv
  | cons x rest ih =>
    intro l0 st inv out st' hrun
    rcases hs : stepLine opts regex filename st x with ⟨o1, os⟩
    cases os with
    | none =>
      rw [runLines_cons_none opts regex filename st x rest o1 hs] at hrun
      exact Option.noConfusion (congrArg Prod.snd hrun)
    | some st1 =>
      rw [runLines_cons_some opts regex filename st x rest o1 st1 hs] at hrun
      have h2 := congrArg Prod.snd hrun
      simp only at h2
      have inv1 := stepLine_inv opts regex filename l0 st inv x o1 st1 hs
      have hrec := ih (l0 ++ [x]) st1 inv1
        (runLines opts regex filename st1 rest).1 st'
        (by rw [← h2])
      rw [List.append_assoc] at hrec
      simpa using hrec

/-! ## C3: window size bound, ordering, exclusion of the current line -/

/-- C3: after any number of processed lines the window reports at most
`min(capacity, lines seen)` entries, replaying it oldest-to-newest yields
strictly ascending line numbers, and it never contains the line currently
being evaluated (whose number is `st.lineno = lines seen + 1`). -/
theorem window_bounded_ordered (opts : Options) (regex : List Char → Bool)
    (filename : List Char) (l : List (List Char)) (hfo : opts.filename_only = false) :
    ∃ out st, runLines opts regex filename (initState opts) l = (out, some st) ∧
      (drainView st opts.before).length ≤ min opts.before l.length ∧
      List.Chain' (fun a b : BeforeLine => a.lineno < b.lineno) (drainView st opts.before) ∧
      (∀ b ∈ drainView st opts.before, b.lineno < st.lineno) ∧
      st.lineno = l.length + 1 := by
  obtain ⟨out, st, hrun⟩ := runLines_total opts regex filename hfo l (initState opts)
  have inv : WinInv opts.before l st := by
    have := runLines_inv opts regex filename l [] (initState opts)
      (winInv_init opts) out st hrun
    simpa using this
  have hcle := winInv_count_le opts.before l st inv
  have hdv := drainView_eq opts.before l st inv
  refine ⟨out, st, hrun, ?_, ?_, ?_, inv.hline⟩
  · rw [hdv, numbered_length, List.length_drop]
    exact le_min (by omega) (by omega)
  · rw [hdv]
    exact numbered_chain _ _
  · intro b hb
    rw [hdv] at hb
    have := numbered_mem_lineno _ _ b hb
    rw [List.length_drop] at this
    rw [inv.hline]
    omega

/-- C3 (witness): the bound/order/exclusion facts on the concrete `-b1`
configuration after two lines. -/
theorem window_bounded_ordered_witness :
    optsMk.filename_only = false ∧
    (∃ out st, runLines optsMk (fun _ => false) ['f'] (initState optsMk)
        [['a'], ['b']] = (out, some st) ∧
      (drainView st optsMk.before).length ≤ min optsMk.before ([['a'], ['b']] : List (List Char)).length ∧
      List.Chain' (fun a b : BeforeLine => a.lineno < b.lineno) (drainView st optsMk.before) ∧
      (∀ b ∈ drainView st optsMk.before, b.lineno < st.lineno) ∧
      st.lineno = ([['a'], ['b']] : List (List Char)).length + 1) :=
  ⟨rfl, window_bounded_ordered optsMk (fun _ => false) ['f'] [['a'], ['b']] rfl⟩

/-! ## C2: exact window contents at drain time -/

/-- C2: at the instant the window is drained for a match at line
`N = l.length + 1`, it holds exactly the up-to-capacity lines immediately
preceding `N` (whatever matched before — the window is never cleared on a
match); the matching line is absent from its own before-block and is
emitted after the drained block; and after the step the current line sits
in the window, available as before-context for a later match. -/
theorem window_drain_exact (opts : Options) (regex : List Char → Bool)
    (filename : List Char) (l : List (List Char)) (cur : List Char)
    (hfo : opts.filename_only = false) :
    ∃ out st, runLines opts regex filename (initState opts) l = (out, some st) ∧
      drainView st opts.before =
        numbered (l.length + 1 - min opts.before l.length)
          (l.drop (l.length - min opts.before l.length)) ∧
      (∀ b ∈ drainView st opts.before, b.lineno ≠ l.length + 1) ∧
      (line_contains cur opts regex = true → opts.count_only = false → 0 < opts.before →
        (stepLine opts regex filename st cur).1 =
          Out.startMark :: (drainView st opts.before).map (fun b =>
            Out.outLine (print_line filename b.line b.lineno opts.line_limit opts.line_crop
              opts.show_line_numbers opts.show_filename)) ++
          [Out.outLine (print_line filename cur (l.length + 1) opts.line_limit opts.line_crop
            opts.show_line_numbers opts.show_filename)]) ∧
      (0 < opts.before → ∃ st', (stepLine opts regex filename st cur).2 = some st' ∧
        (⟨l.length + 1, cur⟩ : BeforeLine) ∈ drainView st' opts.before) := by
  obtain ⟨out, st, hrun⟩ := runLines_total opts regex filename hfo l (initState opts)
  have inv : WinInv opts.before l st := by
    have := runLines_inv opts regex filename l [] (initState opts)
      (winInv_init opts) out st hrun
    simpa using this
  have hcle := winInv_count_le opts.before l st inv
  have hdv := drainView_eq opts.before l st inv
  have hbc : st.buf_count = min opts.before l.length := by
    rcases Nat.lt_or_ge l.length opts.before with hx | hx
    · rw [inv.hcount1 hx, min_eq_right (by omega)]
    · rw [inv.hcount2 hx, min_eq_left (by omega)]
  refine ⟨out, st, hrun, ?_, ?_, ?_, ?_⟩
  · rw [← hbc]
    have he : l.length + 1 - st.buf_count = l.length - st.buf_count + 1 := by omega
    rw [he]
    exact hdv
  · intro b hb
    rw [hdv] at hb
    have := numbered_mem_lineno _ _ b hb
    rw [List.length_drop] at this
    omega
  · intro hm hco hbpos
    have hbne : (opts.before != 0) = true := by
      simp only [bne_iff_ne, ne_eq]
      omega
    simp only [stepLine, hm, hfo, hco, hbne, Bool.and_false, Bool.true_and, Bool.and_true,
      Bool.true_or, Bool.not_false, if_true,
      Bool.false_eq_true, if_neg (by simp : ¬ False)]
    rw [inv.hline]
    simp [List.cons_append, List.append_nil]
  · intro hbpos
    rcases hstep : stepLine opts regex filename st cur with ⟨o1, os⟩
    obtain ⟨st', hst'⟩ := stepLine_ne_none opts regex filename st cur hfo
    rw [hstep] at hst'
    simp only at hst'
    subst hst'
    refine ⟨st', rfl, ?_⟩
    have inv' : WinInv opts.before (l ++ [cur]) st' :=
      stepLine_inv opts regex filename l st inv cur o1 st' hstep
    have hcle' := winInv_count_le opts.before (l ++ [cur]) st' inv'
    have hc'pos : 0 < st'.buf_count := by
      rcases Nat.lt_or_ge (l ++ [cur]).length opts.before with hx | hx
      · have := inv'.hcount1 hx
        simp only [List.length_append, List.length_cons, List.length_nil] at this
        omega
      · have := inv'.hcount2 hx
        omega
    have hdv' := drainView_eq opts.before (l ++ [cur]) st' inv'
    simp only [List.length_append, List.length_cons, List.length_nil] at hdv' hcle'
    have hdropapp : (l ++ [cur]).drop (l.length + 1 - st'.buf_count) =
        l.drop (l.length + 1 - st'.buf_count) ++ [cur] := by
      exact List.drop_append_of_le_length (by omega)
    rw [hdropapp] at hdv'
    have hlast := numbered_mem_last (l.drop (l.length + 1 - st'.buf_count)) cur
      (l.length + 1 - st'.buf_count + 1)
    rw [List.length_drop] at hlast
    have he : l.length + 1 - st'.buf_count + 1 + (l.length - (l.length + 1 - st'.buf_count)) =
        l.length + 1 := by omega
    rw [he] at hlast
    rw [hdv']
    have he2 : l.length + 1 - st'.buf_count + 1 = l.length + 1 - st'.buf_count + 1 := rfl
    exact hlast

/-- C2 (witness): the exact-drain facts on the concrete `-b1` configuration
after one line, with matching current line `a`. -/
theorem window_drain_exact_witness :
    optsMk.filename_only = false ∧
    (∃ out st, runLines optsMk (fun _ => false) ['f'] (initState optsMk) [['x']] = (out, some st) ∧
      drainView st optsMk.before =
        numbered (([['x']] : List (List Char)).length + 1 - min optsMk.before ([['x']] : List (List Char)).length)
          (([['x']] : List (List Char)).drop (([['x']] : List (List Char)).length - min optsMk.before ([['x']] : List (List Char)).length)) ∧
      (∀ b ∈ drainView st optsMk.before, b.lineno ≠ ([['x']] : List (List Char)).length + 1) ∧
      (line_contains ['a'] optsMk (fun _ => false) = true → optsMk.count_only = false →
        0 < optsMk.before →
        (stepLine optsMk (fun _ => false) ['f'] st ['a']).1 =
          Out.startMark :: (drainView st optsMk.before).map (fun b =>
            Out.outLine (print_line ['f'] b.line b.lineno optsMk.line_limit optsMk.line_crop
              optsMk.show_line_numbers optsMk.show_filename)) ++
          [Out.outLine (print_line ['f'] ['a'] (([['x']] : List (List Char)).length + 1)
            optsMk.line_limit optsMk.line_crop optsMk.show_line_numbers optsMk.show_filename)]) ∧
      (0 < optsMk.before → ∃ st', (stepLine optsMk (fun _ => false) ['f'] st ['a']).2 = some st' ∧
        (⟨([['x']] : List (List Char)).length + 1, ['a']⟩ : BeforeLine) ∈ drainView st' optsMk.before)) :=
  ⟨rfl, window_drain_exact optsMk (fun _ => false) ['f'] [['x']] ['a'] rfl⟩


/-! ## C1: count-only mode -/

theorem stepLine_count (opts : Options) (regex : List Char → Bool) (filename : List Char)
    (st : PState) (line : List Char) (hfo : opts.filename_only = false) :
    ∃ out st', stepLine opts regex filename st line = (out, some st') ∧
      st'.lineno = st.lineno + 1 ∧
      st'.match_count =
        (if line_contains line opts regex then st.match_count + 1 else st.match_count) ∧
      (opts.count_only = true → out = []) := by
  cases hm : line_contains line opts regex <;>
    cases hco : opts.count_only <;>
      by_cases hb : opts.before = 0 <;>
        by_cases ha : st.after_counter = 0 <;>
          (simp_all [stepLine, pushLine]
           try exact ⟨_, _, ⟨rfl, rfl⟩, by simp⟩)

theorem runLines_count (opts : Options) (regex : List Char → Bool) (filename : List Char)
    (hfo : opts.filename_only = false) :
    ∀ (l : List (List Char)) (st : PState),
      ∃ out st', runLines opts regex filename st l = (out, some st') ∧
        st'.match_count =
          st.match_count + l.countP (fun ln => line_contains ln opts regex) ∧
        st'.lineno = st.lineno + l.length ∧
        (opts.count_only = true → out = []) := by
  intro l
  induction l with
  | nil => intro st; exact ⟨[], st, rfl, by simp, by simp, fun _ => rfl⟩
  | cons x rest ih =>
    intro st
    obtain ⟨o1, st1, hstep, hln1, hmc1, hout1⟩ :=
      stepLine_count opts regex filename st x hfo
    obtain ⟨o2, st2, hrec, hmc2, hln2, hout2⟩ := ih st1
    refine ⟨o1 ++ o2, st2, ?_, ?_, ?_, ?_⟩
    · rw [runLines_cons_some opts regex filename st x rest o1 st1 hstep, hrec]
    · rw [hmc2, hmc1, List.countP_cons]
      cases hm : line_contains x opts regex <;> (simp [hm]; try omega)
    · rw [hln2, hln1]
      simp only [List.length_cons]
      omega
    · intro hc
      rw [hout1 hc, hout2 hc]
      rfl

/-- C1: in count-only mode (with `-m` off) the engine emits exactly the
per-stream count line `basename:match_count`, preceded only by the optional
`-F` title, and the reported count equals the number of input lines the
matcher (inversion included) classifies as true — whatever the
`before`/`after` context settings are (they are arbitrary in `opts`). -/
theorem count_only_correct (opts : Options) (regex : List Char → Bool)
    (filename : List Char) (input : List (List Char))
    (hc : opts.count_only = true) (hfo : opts.filename_only = false) :
    process_file opts regex filename input =
      (if opts.filename_title then [Out.title filename] else []) ++
      [Out.count (get_basename filename)
        (input.countP (fun ln => line_contains ln opts regex))] := by
  obtain ⟨out, st', hrun, hmc, hln, hout⟩ :=
    runLines_count opts regex filename hfo input (initState opts)
  simp only [process_file, hrun]
  rw [hout hc]
  simp only [hc, if_pos rfl, List.append_nil, List.nil_append]
  rw [hmc]
  simp [initState]

/-- C1 (witness): count mode on a three-line stream with two matches and a
path-qualified filename, with `-b2 -a3` in force. -/
theorem count_only_correct_witness :
    optsCount.count_only = true ∧ optsCount.filename_only = false ∧
    process_file optsCount (fun _ => false) ['d', '/', 'f'] [['a'], ['b'], ['a']] =
      (if optsCount.filename_title then [Out.title ['d', '/', 'f']] else []) ++
      [Out.count (get_basename ['d', '/', 'f'])
        (List.countP (fun ln => line_contains ln optsCount (fun _ => false))
          [['a'], ['b'], ['a']])] :=
  ⟨rfl, rfl,
    count_only_correct optsCount (fun _ => false) ['d', '/', 'f'] [['a'], ['b'], ['a']] rfl rfl⟩

/-! ## C8: filenames-only early exit -/

theorem stepLine_nomatch (opts : Options) (regex : List Char → Bool) (filename : List Char)
    (st : PState) (line : List Char)
    (hm : line_contains line opts regex = false) (ha : st.after_counter = 0) :
    ∃ st', stepLine opts regex filename st line = ([], some st') ∧
      st'.after_counter = 0 ∧ st'.match_count = st.match_count := by
  by_cases hb : opts.before = 0 <;> simp_all [stepLine, pushLine]

theorem stepLine_match_fnames (opts : Options) (regex : List Char → Bool)
    (filename : List Char) (st : PState) (cur : List Char)
    (hm : line_contains cur opts regex = true) (hfo : opts.filename_only = true) :
    stepLine opts regex filename st cur = ([Out.matchIn filename], none) := by
  simp [stepLine, hm, hfo]

/-- C8: in plain filenames-only mode, a stream with no matching line emits
nothing at all, and a stream whose first match is at some line emits
exactly the one matched-filename event and terminates there — the output
does not depend on (and the engine never touches) any line after the first
match. -/
theorem filenames_only_early_exit (opts : Options) (regex : List Char → Bool)
    (filename : List Char) (hfo : opts.filename_only = true)
    (hco : opts.count_only = false) (hft : opts.filename_title = false) :
    (∀ l, (∀ ln ∈ l, line_contains ln opts regex = false) →
      process_file opts regex filename l = []) ∧
    (∀ pre cur rest, (∀ ln ∈ pre, line_contains ln opts regex = false) →
      line_contains cur opts regex = true →
      process_file opts regex filename (pre ++ cur :: rest) = [Out.matchIn filename]) := by
  have nomatch_run : ∀ (l : List (List Char)) (st : PState),
      (∀ ln ∈ l, line_contains ln opts regex = false) → st.after_counter = 0 →
      ∃ st', runLines opts regex filename st l = ([], some st') ∧ st'.after_counter = 0 := by
    intro l
    induction l with
    | nil => intro st _ ha; exact ⟨st, rfl, ha⟩
    | cons y ys ih =>
      intro st hl ha
      obtain ⟨st1, hstep, ha1, -⟩ :=
        stepLine_nomatch opts regex filename st y (hl y (by simp)) ha
      obtain ⟨st2, hrec, ha2⟩ := ih st1 (fun ln hln => hl ln (by simp [hln])) ha1
      refine ⟨st2, ?_, ha2⟩
      rw [runLines_cons_some opts regex filename st y ys [] st1 hstep, hrec]
      rfl
  constructor
  · intro l hl
    obtain ⟨st', hrun, -⟩ := nomatch_run l (initState opts) hl rfl
    simp only [process_file, hrun]
    simp [hft, hco]
  · intro pre cur rest hpre hcur
    have key : ∀ (p : List (List Char)) (st : PState),
        (∀ ln ∈ p, line_contains ln opts regex = false) → st.after_counter = 0 →
        runLines opts regex filename st (p ++ cur :: rest) =
          ([Out.matchIn filename], none) := by
      intro p
      induction p with
      | nil =>
        intro st _ _
        rw [List.nil_append]
        exact runLines_cons_none opts regex filename st cur rest _
          (stepLine_match_fnames opts regex filename st cur hcur hfo)
      | cons y ys ih =>
        intro st hp ha
        obtain ⟨st1, hstep, ha1, -⟩ :=
          stepLine_nomatch opts regex filename st y (hp y (by simp)) ha
        rw [List.cons_append,
          runLines_cons_some opts regex filename st y (ys ++ cur :: rest) [] st1 hstep,
          ih st1 (fun ln hln => hp ln (by simp [hln])) ha1]
        rfl
    have hrun := key pre (initState opts) hpre rfl
    simp only [process_file, hrun]
    simp [hft]

/-- C8 (witness): the early-exit facts on the concrete `-m` configuration. -/
theorem filenames_only_early_exit_witness :
    optsFnames.filename_only = true ∧ optsFnames.count_only = false ∧
    optsFnames.filename_title = false ∧
    ((∀ l, (∀ ln ∈ l, line_contains ln optsFnames (fun _ => false) = false) →
      process_file optsFnames (fun _ => false) ['f'] l = []) ∧
     (∀ pre cur rest, (∀ ln ∈ pre, line_contains ln optsFnames (fun _ => false) = false) →
      line_contains cur optsFnames (fun _ => false) = true →
      process_file optsFnames (fun _ => false) ['f'] (pre ++ cur :: rest) =
        [Out.matchIn ['f']])) :=
  ⟨rfl, rfl, rfl, filenames_only_early_exit optsFnames (fun _ => false) ['f'] rfl rfl rfl⟩


/-! ## C9: fgets chunking of long physical lines -/

theorem readChunk_append (fuel : Nat) : ∀ t : List Char,
    (readChunk fuel t).1 ++ (readChunk fuel t).2 = t := by
  induction fuel with
  | zero => intro t; simp [readChunk]
  | succ f ih =>
    intro t
    cases t with
    | nil => simp [readChunk]
    | cons d ds =>
      by_cases hd : d = '\n'
      · simp [readChunk, hd]
      · simp only [readChunk, if_neg hd, List.cons_append, List.cons.injEq, true_and]
        exact ih ds

theorem readChunk_fst_le (fuel : Nat) : ∀ t : List Char,
    (readChunk fuel t).1.length ≤ fuel := by
  induction fuel with
  | zero => intro t; simp [readChunk]
  | succ f ih =>
    intro t
    cases t with
    | nil => simp [readChunk]
    | cons d ds =>
      by_cases hd : d = '\n'
      · simp [readChunk, hd]
      · simp only [readChunk, if_neg hd, List.length_cons]
        have := ih ds
        omega

theorem readChunk_fst_pos (fuel : Nat) (c : Char) (rest : List Char) :
    0 < (readChunk (fuel + 1) (c :: rest)).1.length := by
  by_cases hc : c = '\n' <;> simp [readChunk, hc]

theorem fgetsChunks_cons_eq (c : Char) (rest : List Char) :
    fgetsChunks (c :: rest) =
      (readChunk (MAX_LINE_LEN - 1) (c :: rest)).1 ::
        fgetsChunks ((readChunk (MAX_LINE_LEN - 1) (c :: rest)).2) := by
  rw [fgetsChunks]

theorem fgetsChunks_nil : fgetsChunks [] = [] := by
  rw [fgetsChunks]

theorem readChunk_replicate_ge (f : Nat) : ∀ (n : Nat) (c : Char) (t : List Char),
    c ≠ '\n' → f ≤ n →
    readChunk f (List.replicate n c ++ t) =
      (List.replicate f c, List.replicate (n - f) c ++ t) := by
  induction f with
  | zero => intro n c t _ _; simp [readChunk]
  | succ f ih =>
    intro n c t hc h
    cases n with
    | zero => omega
    | succ m =>
      rw [List.replicate_succ, List.cons_append]
      simp only [readChunk, if_neg hc]
      rw [ih m c t hc (by omega)]
      simp [List.replicate_succ]

theorem readChunk_short (n : Nat) : ∀ (f : Nat) (c : Char),
    c ≠ '\n' → n < f →
    readChunk f (List.replicate n c ++ ['\n']) =
      (List.replicate n c ++ ['\n'], []) := by
  induction n with
  | zero =>
    intro f c _ h
    cases f with
    | zero => omega
    | succ g => simp [readChunk]
  | succ m ih =>
    intro f c hc h
    cases f with
    | zero => omega
    | succ g =>
      rw [List.replicate_succ, List.cons_append]
      simp only [readChunk, if_neg hc]
      rw [ih g c hc (by omega)]

/-- One unfolding of the chunking loop on a single newline-terminated
physical line of `n` identical characters: when the line is at least
`MAX_LINE_LEN - 1` characters, `fgets` reads exactly `MAX_LINE_LEN - 1` of
them and leaves the rest (newline included) for the next iterations. -/
theorem fgetsChunks_physLine (c : Char) (hc : c ≠ '\n') (n : Nat) :
    fgetsChunks (List.replicate n c ++ ['\n']) =
      if MAX_LINE_LEN - 1 ≤ n then
        List.replicate (MAX_LINE_LEN - 1) c ::
          fgetsChunks (List.replicate (n - (MAX_LINE_LEN - 1)) c ++ ['\n'])
      else [List.replicate n c ++ ['\n']] := by
  cases n with
  | zero =>
    rw [if_neg (by decide)]
    simp only [List.replicate_zero, List.nil_append]
    rw [fgetsChunks_cons_eq]
    have h0 : (0 : Nat) < MAX_LINE_LEN - 1 := by decide
    have := readChunk_short 0 (MAX_LINE_LEN - 1) c hc h0
    simp only [List.replicate_zero, List.nil_append] at this
    rw [this, fgetsChunks_nil]
  | succ m =>
    by_cases h : MAX_LINE_LEN - 1 ≤ m + 1
    · rw [if_pos h]
      have hrep : List.replicate (m + 1) c ++ ['\n'] =
          c :: (List.replicate m c ++ ['\n']) := by
        rw [List.replicate_succ, List.cons_append]
      rw [hrep, fgetsChunks_cons_eq, ← hrep,
        readChunk_replicate_ge (MAX_LINE_LEN - 1) (m + 1) c ['\n'] hc h]
    · rw [if_neg h]
      have hrep : List.replicate (m + 1) c ++ ['\n'] =
          c :: (List.replicate m c ++ ['\n']) := by
        rw [List.replicate_succ, List.cons_append]
      rw [hrep, fgetsChunks_cons_eq, ← hrep,
        readChunk_short (m + 1) (MAX_LINE_LEN - 1) c hc (by omega)]
      rw [fgetsChunks_nil]

theorem fgetsChunks_physLine_length (c : Char) (hc : c ≠ '\n') (n : Nat) :
    (fgetsChunks (List.replicate n c ++ ['\n'])).length = n / (MAX_LINE_LEN - 1) + 1 := by
  induction n using Nat.strong_induction_on with
  | _ n ih =>
    rw [fgetsChunks_physLine c hc n]
    have hpos : (0 : Nat) < MAX_LINE_LEN - 1 := by decide
    by_cases h : MAX_LINE_LEN - 1 ≤ n
    · rw [if_pos h]
      simp only [List.length_cons]
      rw [ih (n - (MAX_LINE_LEN - 1)) (by omega)]
      rw [Nat.div_eq_sub_div hpos h]
    · rw [if_neg h]
      simp only [List.length_cons, List.length_nil]
      rw [Nat.div_eq_of_lt (by omega)]

theorem fgetsChunks_flatten_le : ∀ (k : Nat) (s : List Char), s.length ≤ k →
    (fgetsChunks s).flatten = s ∧
    (∀ ch ∈ fgetsChunks s, ch.length ≤ MAX_LINE_LEN - 1) := by
  intro k
  induction k with
  | zero =>
    intro s hs
    have : s = [] := List.eq_nil_of_length_eq_zero (by omega)
    subst this
    rw [fgetsChunks_nil]
    exact ⟨rfl, by simp⟩
  | succ k ih =>
    intro s hs
    cases s with
    | nil => rw [fgetsChunks_nil]; exact ⟨rfl, by simp⟩
    | cons c rest =>
      rw [fgetsChunks_cons_eq]
      have happ := readChunk_append (MAX_LINE_LEN - 1) (c :: rest)
      have hsplit := congrArg List.length happ
      simp only [List.length_append, List.length_cons] at hsplit
      have hposlen : 0 < (readChunk (MAX_LINE_LEN - 1) (c :: rest)).1.length := by
        have h49 : MAX_LINE_LEN - 1 = 4094 + 1 := rfl
        rw [h49]
        exact readChunk_fst_pos 4094 c rest
      have hrec := ih ((readChunk (MAX_LINE_LEN - 1) (c :: rest)).2)
        (by simp only [List.length_cons] at hs; omega)
      constructor
      · simp only [List.flatten_cons, hrec.1]
        exact happ
      · intro ch hch
        simp only [List.mem_cons] at hch
        rcases hch with hch | hch
        · subst hch
          exact readChunk_fst_le (MAX_LINE_LEN - 1) (c :: rest)
        · exact hrec.2 ch hch

/-- C9: a newline-terminated physical line of `n ≥ MAX_LINE_LEN - 1 = 4095`
identical characters is split by the `fgets(line, 4096, ..)` loop into
`n / 4095 + 1 ≥ 2` consecutive logical lines that concatenate back to the
stream, each at most 4095 bytes; the driver then gives each chunk its own
incrementing line number (final `lineno` is `chunks + 1`) and classifies
each chunk against the pattern independently (the match count is the count
of individually matching chunks). -/
theorem long_line_chunked (n : Nat) (c : Char) (hc : c ≠ '\n')
    (hn : MAX_LINE_LEN - 1 ≤ n) :
    2 ≤ (fgetsChunks (List.replicate n c ++ ['\n'])).length ∧
    (fgetsChunks (List.replicate n c ++ ['\n'])).length = n / (MAX_LINE_LEN - 1) + 1 ∧
    (fgetsChunks (List.replicate n c ++ ['\n'])).flatten = List.replicate n c ++ ['\n'] ∧
    (∀ ch ∈ fgetsChunks (List.replicate n c ++ ['\n']), ch.length ≤ MAX_LINE_LEN - 1) ∧
    (∀ (opts : Options) (regex : List Char → Bool) (filename : List Char),
      opts.filename_only = false →
      ∃ out st, runLines opts regex filename (initState opts)
          (fgetsChunks (List.replicate n c ++ ['\n'])) = (out, some st) ∧
        st.lineno = (fgetsChunks (List.replicate n c ++ ['\n'])).length + 1 ∧
        st.match_count = (fgetsChunks (List.replicate n c ++ ['\n'])).countP
          (fun ln => line_contains ln opts regex)) := by
  have hlen := fgetsChunks_physLine_length c hc n
  have hflat := fgetsChunks_flatten_le (List.replicate n c ++ ['\n']).length
    (List.replicate n c ++ ['\n']) (le_refl _)
  have hpos : (0 : Nat) < MAX_LINE_LEN - 1 := by decide
  refine ⟨?_, hlen, hflat.1, hflat.2, ?_⟩
  · rw [hlen]
    have : 1 ≤ n / (MAX_LINE_LEN - 1) := (Nat.one_le_div_iff hpos).mpr hn
    omega
  · intro opts regex filename hfo
    obtain ⟨out, st, hrun, hmc, hln, -⟩ := runLines_count opts regex filename hfo
      (fgetsChunks (List.replicate n c ++ ['\n'])) (initState opts)
    refine ⟨out, st, hrun, ?_, ?_⟩
    · rw [hln]
      simp [initState, Nat.add_comm]
    · rw [hmc]
      simp [initState]

/-- C9 (witness): the chunking facts at the boundary case
`n = MAX_LINE_LEN - 1 = 4095` (a 4096-byte physical line). -/
theorem long_line_chunked_witness :
    'a' ≠ '\n' ∧ MAX_LINE_LEN - 1 ≤ MAX_LINE_LEN - 1 ∧
    (2 ≤ (fgetsChunks (List.replicate (MAX_LINE_LEN - 1) 'a' ++ ['\n'])).length ∧
    (fgetsChunks (List.replicate (MAX_LINE_LEN - 1) 'a' ++ ['\n'])).length =
      (MAX_LINE_LEN - 1) / (MAX_LINE_LEN - 1) + 1 ∧
    (fgetsChunks (List.replicate (MAX_LINE_LEN - 1) 'a' ++ ['\n'])).flatten =
      List.replicate (MAX_LINE_LEN - 1) 'a' ++ ['\n'] ∧
    (∀ ch ∈ fgetsChunks (List.replicate (MAX_LINE_LEN - 1) 'a' ++ ['\n']),
      ch.length ≤ MAX_LINE_LEN - 1) ∧
    (∀ (opts : Options) (regex : List Char → Bool) (filename : List Char),
      opts.filename_only = false →
      ∃ out st, runLines opts regex filename (initState opts)
          (fgetsChunks (List.replicate (MAX_LINE_LEN - 1) 'a' ++ ['\n'])) = (out, some st) ∧
        st.lineno = (fgetsChunks (List.replicate (MAX_LINE_LEN - 1) 'a' ++ ['\n'])).length + 1 ∧
        st.match_count = (fgetsChunks (List.replicate (MAX_LINE_LEN - 1) 'a' ++ ['\n'])).countP
          (fun ln => line_contains ln opts regex))) :=
  ⟨by decide, le_refl _,
    long_line_chunked (MAX_LINE_LEN - 1) 'a' (by decide) (le_refl _)⟩

end FS
